import Mathlib

/-!
Verification of the caching query loop of the `post--python-literature`
notebook.  The notebook generates a list of (year, month) periods,
queries the ADS search service once per period for the number of
full-text mentions of a term, and caches the per-period counts in a CSV
file (`get_df`).  We embed the period generator and `get_df` shallowly:
the network is an oracle `Period → Option Nat` (`none` models a query
that raises), the cache file is an `Option Cache`, and the run records a
trace of query / sleep / file-write events.
-/

namespace PyLit

/-- A (year, month) query bucket, as produced by the `dates` list
comprehension in the notebook. -/
structure Period where
  y : Nat
  m : Nat
deriving DecidableEq, Repr

/-- A calendar date `datetime.date(year, month, day)`. -/
structure Date where
  year : Nat
  month : Nat
  day : Nat
deriving DecidableEq, Repr

/-- One row of the cache CSV: a date column and a count column, where
count `-1` is the "not yet fetched" sentinel. -/
structure Record where
  date : Date
  count : Int
deriving DecidableEq, Repr

/-- The cache table: ordered rows, one per period position. -/
abbrev Cache := List Record

/-- `datetime.date(1984, 1, 1)`, the placeholder date used when the
cache is initialized. -/
def placeholderDate : Date := ⟨1984, 1, 1⟩

/-- `pd.DataFrame({"date": np.full(ndates, date(1984,1,1)), "count":
np.full(ndates, -1)})`: a fresh all-pending cache of `n` rows. -/
def initCache (n : Nat) : Cache := List.replicate n ⟨placeholderDate, -1⟩

/-- `d["count"][i] >= 0` is false, i.e. row `i` exists and is pending. -/
def pendingAt (d : Cache) (i : Nat) : Bool :=
  match d.get? i with
  | some r => decide (r.count < 0)
  | none => false

/-- `np.all(df["count"] >= 0)`: every row of the loaded table is
resolved (true for an empty table). -/
def allResolved (d : Cache) : Bool := d.all (fun r => decide (0 ≤ r.count))

/-- Observable events of one `get_df` run: a network query for period
index `i`, a `time.sleep` of the given duration, a `to_csv` write of the
given table. -/
inductive Ev where
  | query (i : Nat)
  | sleep (t : Nat)
  | write (c : Cache)
deriving DecidableEq, Repr

/-- Number of network queries in a trace. -/
def nQueries (tr : List Ev) : Nat :=
  (tr.filter (fun e => match e with | Ev.query _ => true | _ => false)).length

/-- Total sleep duration in a trace. -/
def totalSleep (tr : List Ev) : Nat :=
  (tr.map (fun e => match e with | Ev.sleep t => t | _ => 0)).sum

/-- The `for i, (y, m) in enumerate(dates)` loop of `get_df`, starting
at index `i`: skip resolved rows, otherwise query the oracle, store
`(date(y, m, 1), count)` at row `i` and sleep.  A `none` oracle answer
(the `ads` call raising) or a missing row (`KeyError` on
`d["count"][i]`) aborts the run; `.error` carries the events that
happened before the abort. -/
def runLoop (oracle : Period → Option Nat) (s : Nat) :
    Nat → List Period → Cache → Except (List Ev) (Cache × List Ev)
  | _, [], d => .ok (d, [])
  | i, p :: rest, d =>
    match d.get? i with
    | none => .error []
    | some r =>
      if 0 ≤ r.count then
        runLoop oracle s (i + 1) rest d
      else
        match oracle p with
        | none => .error [Ev.query i]
        | some c =>
          match runLoop oracle s (i + 1) rest (d.set i ⟨⟨p.y, p.m, 1⟩, Int.ofNat c⟩) with
          | .ok (d', tr) => .ok (d', Ev.query i :: Ev.sleep s :: tr)
          | .error tr => .error (Ev.query i :: Ev.sleep s :: tr)

/-- Outcome of one `get_df` call: the returned table (`none` if the run
raised), the final contents of the cache file, and the event trace. -/
structure RunResult where
  result : Option Cache
  file : Option Cache
  trace : List Ev
deriving DecidableEq, Repr

/-- The table `pd.read_csv(cache_file)` sees: the stored one, or the
freshly initialized all-pending one when the file was absent or
`overwrite` was set. -/
def loadCache (file0 : Option Cache) (overwrite : Bool) (n : Nat) : Cache :=
  match file0 with
  | none => initCache n
  | some c => if overwrite then initCache n else c

/-- The initial `to_csv` write, performed exactly when the file was
absent or `overwrite` was set. -/
def initWrites (file0 : Option Cache) (overwrite : Bool) (n : Nat) : List Ev :=
  match file0 with
  | none => [Ev.write (initCache n)]
  | some _ => if overwrite then [Ev.write (initCache n)] else []

/-- Shallow embedding of `get_df(term, db, dates, overwrite, sleep)`.
`oracle p` is the count the ADS query for period `p` returns (the term
and database are fixed inside the oracle), `s` the sleep duration,
`file0` the current contents of the cache file for this (term, db)
identity.  Mirrors the source: (re)initialize and write the file when it
is absent or `overwrite` is set, load it, run the loop only when some
loaded count is negative, and write the table back at the end of a
non-raising run. -/
def get_df (oracle : Period → Option Nat) (periods : List Period)
    (overwrite : Bool) (s : Nat) (file0 : Option Cache) : RunResult :=
  let n := periods.length
  let d0 : Cache := loadCache file0 overwrite n
  let pre : List Ev := initWrites file0 overwrite n
  if allResolved d0 then
    { result := some d0, file := some d0, trace := pre ++ [Ev.write d0] }
  else
    match runLoop oracle s 0 periods d0 with
    | .ok (d', tr) =>
      { result := some d', file := some d', trace := pre ++ tr ++ [Ev.write d'] }
    | .error tr => { result := none, file := some d0, trace := pre ++ tr }

/-- `years = range(1991, 2018 + 1, 1)`. -/
def years : List Nat := List.range' 1991 28

/-- `months = range(1, 12 + 1, 1)`. -/
def months : List Nat := List.range' 1 12

/-- The `dates` list comprehension: all (y, m) in `itertools.product`
order with `y < 2018 or (y == 2018 and m < 3)`, then `[1:]`. -/
def dates : List (Nat × Nat) :=
  ((years.flatMap (fun y => months.map (fun m => (y, m)))).filter
    (fun ym => decide (ym.1 < 2018) || (decide (ym.1 = 2018) && decide (ym.2 < 3)))).drop 1

/-- Python `"{m:02d}"`: zero-pad to two digits. -/
def pad2 (m : Nat) : String := if m < 10 then "0" ++ toString m else toString m

/-- The notebook's query template
`'full:"{term:s}"  pubdate:{y:d}-{m:02d} database:"{db:s}"'`
applied to its arguments.  Note the two spaces after the closing quote
of the term, exactly as in the source string. -/
def queryString (term db : String) (y m : Nat) : String :=
  "full:\"" ++ term ++ "\"  pubdate:" ++ toString y ++ "-" ++ pad2 m
    ++ " database:\"" ++ db ++ "\""

/-- The query-string shape as the spec writes it:
`full:"<term>" pubdate:<year>-<2-digit month> database:"<database>"`
with single spaces between the three clauses. -/
def specQueryString (term db : String) (y m : Nat) : String :=
  "full:\"" ++ term ++ "\" pubdate:" ++ toString y ++ "-"
    ++ ((if m < 10 then "0" else "") ++ toString m)
    ++ " database:\"" ++ db ++ "\""

/-- The spec shape amended to match the source: two spaces between the
full-text clause and the pubdate clause. -/
def specQueryStringTwoSpace (term db : String) (y m : Nat) : String :=
  "full:\"" ++ term ++ "\"  pubdate:" ++ toString y ++ "-"
    ++ ((if m < 10 then "0" else "") ++ toString m)
    ++ " database:\"" ++ db ++ "\""

/-- Accumulate the sleep time seen since the last query (`none` before
the first query); each query after the first emits the accumulated gap. -/
def gapsAux : List Ev → Option Nat → List Nat
  | [], _ => []
  | Ev.query _ :: r, none => gapsAux r (some 0)
  | Ev.query _ :: r, some a => a :: gapsAux r (some 0)
  | Ev.sleep _ :: r, none => gapsAux r none
  | Ev.sleep t :: r, some a => gapsAux r (some (a + t))
  | Ev.write _ :: r, acc => gapsAux r acc

/-- The list of total sleep durations between consecutive queries of a
trace. -/
def gaps (tr : List Ev) : List Nat := gapsAux tr none

/-- Shape of the event list the fetch loop emits: each query is followed
by a sleep of `s`, except a final failing query. -/
inductive LoopTrace (s : Nat) : List Ev → Prop
  | nil : LoopTrace s []
  | single (i : Nat) : LoopTrace s [Ev.query i]
  | step (i : Nat) (tr : List Ev) : LoopTrace s tr →
      LoopTrace s (Ev.query i :: Ev.sleep s :: tr)

/-- An oracle that answers the February 1991 query with 5 and raises on
everything else. -/
def oracleFail : Period → Option Nat := fun p => if p.m = 2 then some 5 else none

/-- The two-period request used in the concrete failure runs. -/
def periodsAB : List Period := [⟨1991, 2⟩, ⟨1991, 3⟩]

/-- A stored cache with a single, already resolved row — one row short
of the two requested periods. -/
def cacheShort : Cache := [⟨⟨1991, 2, 1⟩, 7⟩]

/-- A total oracle for concrete runs: every query answers. -/
def oracleW : Period → Option Nat := fun p => some (p.y + p.m)

/-- A stored two-row cache with the first row resolved and the second
pending. -/
def cacheMixed : Cache := [⟨⟨1991, 2, 1⟩, 7⟩, ⟨placeholderDate, -1⟩]

/-- A stored cache whose single row is resolved. -/
def cacheDone : Cache := [⟨⟨1991, 2, 1⟩, 4⟩]

/-- Chronological order on (year, month) pairs with months in 1..12. -/
def chronoBefore (a b : Nat × Nat) : Prop := a.1 * 12 + a.2 < b.1 * 12 + b.2

instance : DecidableRel chronoBefore := fun a b => Nat.decLt (a.1 * 12 + a.2) (b.1 * 12 + b.2)

/-- Boolean check that adjacent list elements are in chronological
order. -/
def chronoSorted : List (Nat × Nat) → Bool
  | [] => true
  | [_] => true
  | a :: b :: r => decide (chronoBefore a b) && chronoSorted (b :: r)

/-- Number of pending rows of `d` among positions `i, i+1, ...` for the
given length. -/
def countPendingRange (d : Cache) : Nat → Nat → Nat
  | _, 0 => 0
  | i, len + 1 => (if pendingAt d i then 1 else 0) + countPendingRange d (i + 1) len

/-- Number of pending (count < 0) rows of a cache. -/
def countPending : Cache → Nat
  | [] => 0
  | r :: d => (if r.count < 0 then 1 else 0) + countPending d

/-- Number of resolved (count ≥ 0) rows of a cache. -/
def countResolved : Cache → Nat
  | [] => 0
  | r :: d => (if 0 ≤ r.count then 1 else 0) + countResolved d

theorem chronoSorted_iff_chain (l : List (Nat × Nat)) :
    chronoSorted l = true ↔ List.Chain' chronoBefore l := by
  match l with
  | [] => simp [chronoSorted]
  | [a] => simp [chronoSorted]
  | a :: b :: r =>
    rw [chronoSorted, List.chain'_cons, Bool.and_eq_true, decide_eq_true_eq,
      chronoSorted_iff_chain (b :: r)]

theorem pendingAt_set_ne (d : Cache) (i j : Nat) (v : Record) (h : i ≠ j) :
    pendingAt (d.set i v) j = pendingAt d j := by
  unfold pendingAt
  rw [List.get?_set_ne v d h]

theorem countPendingRange_set_lt (d : Cache) (v : Record) :
    ∀ (len i j : Nat), j < i →
      countPendingRange (d.set j v) i len = countPendingRange d i len
  | 0, _, _, _ => rfl
  | len + 1, i, j, h => by
    rw [countPendingRange, countPendingRange,
      pendingAt_set_ne d j i v (Nat.ne_of_lt h),
      countPendingRange_set_lt d v len (i + 1) j (Nat.lt_succ_of_lt h)]

theorem countPendingRange_cons (r : Record) (d : Cache) :
    ∀ (len i : Nat), countPendingRange (r :: d) (i + 1) len = countPendingRange d i len
  | 0, _ => rfl
  | len + 1, i => by
    rw [countPendingRange, countPendingRange]
    have hp : pendingAt (r :: d) (i + 1) = pendingAt d i := by
      unfold pendingAt; rw [List.get?_cons_succ]
    rw [hp, countPendingRange_cons r d len (i + 1)]

theorem countPendingRange_full :
    ∀ d : Cache, countPendingRange d 0 d.length = countPending d
  | [] => rfl
  | r :: d => by
    have hp : pendingAt (r :: d) 0 = decide (r.count < 0) := rfl
    rw [List.length_cons, countPendingRange, countPendingRange_cons r d d.length 0,
      countPendingRange_full d, hp, countPending]
    by_cases h : r.count < 0 <;> simp [h]

theorem countPending_add_countResolved (d : Cache) :
    countPending d + countResolved d = d.length := by
  induction d with
  | nil => rfl
  | cons r d ih =>
    rw [countPending, countResolved, List.length_cons]
    by_cases h : 0 ≤ r.count
    · have h2 : ¬r.count < 0 := by omega
      simp only [h, h2, if_true, if_false]
      omega
    · have h2 : r.count < 0 := by omega
      simp only [h, h2, if_true, if_false]
      omega

theorem get?_lt_length {d : Cache} {i : Nat} {r : Record} (h : d.get? i = some r) :
    i < d.length := by
  by_contra hle
  rw [List.get?_eq_none.mpr (Nat.le_of_not_lt hle)] at h
  cases h

/-- Full characterization of a non-raising run of the fetch loop
started at index `i` on cache `d`: the length is preserved, the number
of queries equals the number of pending rows among the visited
positions, positions before `i` are untouched, and the visited position
`i + j` holds the freshly fetched record if it was pending and its old
record otherwise. -/
theorem runLoop_spec (oracle : Period → Option Nat) (s : Nat) (ps : List Period) :
    ∀ (i : Nat) (d d' : Cache) (tr : List Ev),
      runLoop oracle s i ps d = .ok (d', tr) →
      d'.length = d.length ∧
      nQueries tr = countPendingRange d i ps.length ∧
      (∀ j, j < i → d'.get? j = d.get? j) ∧
      (∀ j p, ps.get? j = some p →
        d'.get? (i + j) =
          if pendingAt d (i + j) then
            some ⟨⟨p.y, p.m, 1⟩, Int.ofNat ((oracle p).getD 0)⟩
          else d.get? (i + j)) := by
  induction ps with
  | nil =>
    intro i d d' tr h
    rw [runLoop] at h
    simp only [Except.ok.injEq, Prod.mk.injEq] at h
    obtain ⟨rfl, rfl⟩ := h
    refine ⟨rfl, rfl, fun _ _ => rfl, fun j p hj => by cases hj⟩
  | cons p rest ih =>
    intro i d d' tr h
    rw [runLoop] at h
    cases hget : d.get? i with
    | none => rw [hget] at h; cases h
    | some r =>
      rw [hget] at h
      simp only at h
      have hi : i < d.length := get?_lt_length hget
      by_cases hc : 0 ≤ r.count
      · rw [if_pos hc] at h
        have hp : pendingAt d i = false := by
          unfold pendingAt; rw [hget]; simp; omega
        obtain ⟨hlen, hq, h3, h4⟩ := ih (i + 1) d d' tr h
        refine ⟨hlen, ?_, ?_, ?_⟩
        · rw [List.length_cons, countPendingRange, hp]
          simpa using hq
        · exact fun j hj => h3 j (Nat.lt_succ_of_lt hj)
        · intro j q hq2
          cases j with
          | zero =>
            obtain rfl : p = q := by simpa using hq2
            rw [Nat.add_zero, hp, if_neg (by simp)]
            exact h3 i (Nat.lt_succ_self i)
          | succ j =>
            have hq3 : rest.get? j = some q := by simpa using hq2
            have hgoal := h4 j q hq3
            rw [show i + (j + 1) = i + 1 + j by omega]
            exact hgoal
      · rw [if_neg hc] at h
        have hp : pendingAt d i = true := by
          unfold pendingAt; rw [hget]; simp; omega
        cases hor : oracle p with
        | none => rw [hor] at h; simp only at h; cases h
        | some c =>
          rw [hor] at h
          simp only at h
          cases hrun : runLoop oracle s (i + 1) rest (d.set i ⟨⟨p.y, p.m, 1⟩, Int.ofNat c⟩) with
          | error tr2 => rw [hrun] at h; simp only at h; cases h
          | ok pr =>
            obtain ⟨d2', tr2⟩ := pr
            rw [hrun] at h
            simp only [Except.ok.injEq, Prod.mk.injEq] at h
            obtain ⟨rfl, rfl⟩ := h
            obtain ⟨hlen, hq, h3, h4⟩ :=
              ih (i + 1) (d.set i ⟨⟨p.y, p.m, 1⟩, Int.ofNat c⟩) d2' tr2 hrun
            refine ⟨by rw [hlen, List.length_set], ?_, ?_, ?_⟩
            · have hnq : nQueries (Ev.query i :: Ev.sleep s :: tr2) = 1 + nQueries tr2 := by
                simp [nQueries, List.filter, Nat.add_comm]
              rw [hnq, hq, countPendingRange_set_lt d _ rest.length (i + 1) i (Nat.lt_succ_self i),
                List.length_cons, countPendingRange, hp]
              simp
            · intro j hj
              rw [h3 j (Nat.lt_succ_of_lt hj),
                List.get?_set_ne _ _ (Nat.ne_of_gt hj)]
            · intro j q hq2
              cases j with
              | zero =>
                obtain rfl : p = q := by simpa using hq2
                rw [Nat.add_zero, hp, if_pos rfl, h3 i (Nat.lt_succ_self i),
                  List.get?_set_eq_of_lt _ hi, hor]
                rfl
              | succ j =>
                have hq3 : rest.get? j = some q := by simpa using hq2
                have hgoal := h4 j q hq3
                rw [pendingAt_set_ne d i (i + 1 + j) _ (by omega),
                  List.get?_set_ne _ _ (show i ≠ i + 1 + j by omega)] at hgoal
                rw [show i + (j + 1) = i + 1 + j by omega]
                exact hgoal

/-- With an oracle that answers every requested period and a cache
covering all visited positions, the loop cannot raise. -/
theorem runLoop_ok_of_total (oracle : Period → Option Nat) (s : Nat) :
    ∀ (ps : List Period) (i : Nat) (d : Cache),
      i + ps.length ≤ d.length → (∀ p ∈ ps, (oracle p).isSome) →
      ∃ d' tr, runLoop oracle s i ps d = .ok (d', tr)
  | [], i, d, _, _ => ⟨d, [], rfl⟩
  | p :: rest, i, d, hlen, hor => by
    have hi : i < d.length := by
      rw [List.length_cons] at hlen; omega
    obtain ⟨r, hget⟩ : ∃ r, d.get? i = some r := by
      cases hr : d.get? i with
      | none => exact absurd (List.get?_eq_none.mp hr) (by omega)
      | some r => exact ⟨r, rfl⟩
    by_cases hc : 0 ≤ r.count
    · obtain ⟨d', tr, hrun⟩ := runLoop_ok_of_total oracle s rest (i + 1) d
        (by rw [List.length_cons] at hlen; omega)
        (fun q hq => hor q (List.mem_cons_of_mem _ hq))
      refine ⟨d', tr, ?_⟩
      rw [runLoop, hget]
      simp only [if_pos hc]
      exact hrun
    · obtain ⟨c, hor2⟩ : ∃ c, oracle p = some c := by
        have := hor p (List.mem_cons_self p rest)
        cases ho : oracle p with
        | none => rw [ho] at this; cases this
        | some c => exact ⟨c, rfl⟩
      obtain ⟨d', tr, hrun⟩ := runLoop_ok_of_total oracle s rest (i + 1)
        (d.set i ⟨⟨p.y, p.m, 1⟩, Int.ofNat c⟩)
        (by rw [List.length_set, List.length_cons] at *; omega)
        (fun q hq => hor q (List.mem_cons_of_mem _ hq))
      refine ⟨d', Ev.query i :: Ev.sleep s :: tr, ?_⟩
      rw [runLoop, hget]
      simp only [if_neg hc]
      rw [hor2]
      simp only
      rw [hrun]

theorem allResolved_iff (d : Cache) :
    allResolved d = true ↔ ∀ r ∈ d, 0 ≤ r.count := by
  unfold allResolved
  rw [List.all_eq_true]
  simp

theorem length_initCache (n : Nat) : (initCache n).length = n := by
  simp [initCache]

theorem allResolved_initCache_succ (n : Nat) :
    allResolved (initCache (n + 1)) = false := rfl

theorem countPending_initCache (n : Nat) : countPending (initCache n) = n := by
  induction n with
  | zero => rfl
  | succ k ih =>
    show countPending (⟨placeholderDate, -1⟩ :: initCache k) = k + 1
    rw [countPending, ih]
    simp [Nat.add_comm]

theorem pendingAt_initCache (n j : Nat) (h : j < n) :
    pendingAt (initCache n) j = true := by
  induction n generalizing j with
  | zero => omega
  | succ k ih =>
    cases j with
    | zero => rfl
    | succ j =>
      show pendingAt (⟨placeholderDate, -1⟩ :: initCache k) (j + 1) = true
      unfold pendingAt
      rw [List.get?_cons_succ]
      exact ih j (by omega)

/-- A fetch loop over a fresh all-pending cache with a total oracle:
it succeeds, queries every period once, and row `j` of the result holds
the fetched count for period `j` dated to the first of its month. -/
theorem runLoop_fresh (oracle : Period → Option Nat) (s : Nat) (periods : List Period)
    (hor : ∀ p ∈ periods, (oracle p).isSome) :
    ∃ d' tr, runLoop oracle s 0 periods (initCache periods.length) = .ok (d', tr) ∧
      d'.length = periods.length ∧
      nQueries tr = periods.length ∧
      (∀ j p, periods.get? j = some p →
        ∃ c, oracle p = some c ∧ d'.get? j = some ⟨⟨p.y, p.m, 1⟩, Int.ofNat c⟩) := by
  obtain ⟨d', tr, hrun⟩ := runLoop_ok_of_total oracle s periods 0 (initCache periods.length)
    (by rw [length_initCache]; omega) hor
  obtain ⟨hlen, hq, _, h4⟩ := runLoop_spec oracle s periods 0 _ d' tr hrun
  refine ⟨d', tr, hrun, by rw [hlen, length_initCache], ?_, ?_⟩
  · rw [hq]
    have : countPendingRange (initCache periods.length) 0 periods.length
        = countPending (initCache periods.length) := by
      have := countPendingRange_full (initCache periods.length)
      rwa [length_initCache] at this
    rw [this, countPending_initCache]
  · intro j p hj
    have hjlt : j < periods.length := by
      by_contra hle
      rw [List.get?_eq_none.mpr (Nat.le_of_not_lt hle)] at hj
      cases hj
    obtain ⟨c, hc⟩ : ∃ c, oracle p = some c := by
      have := hor p (List.get?_mem hj)
      cases ho : oracle p with
      | none => rw [ho] at this; cases this
      | some c => exact ⟨c, rfl⟩
    have := h4 j p hj
    rw [Nat.zero_add, pendingAt_initCache periods.length j hjlt, if_pos rfl, hc] at this
    exact ⟨c, hc, this⟩

/-- When the cache has one row per period, a resolved row survives a
non-raising loop run unchanged. -/
theorem runLoop_preserves_resolved (oracle : Period → Option Nat) (s : Nat)
    (periods : List Period) (d d' : Cache) (tr : List Ev)
    (hd : d.length = periods.length)
    (hrun : runLoop oracle s 0 periods d = .ok (d', tr))
    (j : Nat) (r : Record) (hget : d.get? j = some r) (hres : 0 ≤ r.count) :
    d'.get? j = some r := by
  obtain ⟨_, _, _, h4⟩ := runLoop_spec oracle s periods 0 d d' tr hrun
  have hj : j < periods.length := hd ▸ get?_lt_length hget
  obtain ⟨p, hp⟩ : ∃ p, periods.get? j = some p := by
    cases hq : periods.get? j with
    | none => exact absurd (List.get?_eq_none.mp hq) (by omega)
    | some p => exact ⟨p, rfl⟩
  have h5 := h4 j p hp
  have hpend : pendingAt d (0 + j) = false := by
    unfold pendingAt
    rw [Nat.zero_add, hget]
    simp; omega
  rw [hpend, if_neg (by simp)] at h5
  rw [Nat.zero_add] at h5
  rw [hget] at h5
  exact h5

theorem nQueries_append (l1 l2 : List Ev) :
    nQueries (l1 ++ l2) = nQueries l1 + nQueries l2 := by
  simp [nQueries, List.filter_append]

theorem nQueries_write_cons (c : Cache) (l : List Ev) :
    nQueries (Ev.write c :: l) = nQueries l := rfl

theorem totalSleep_append (l1 l2 : List Ev) :
    totalSleep (l1 ++ l2) = totalSleep l1 + totalSleep l2 := by
  simp [totalSleep]

theorem countPending_eq_zero_of_allResolved (d : Cache) (h : allResolved d = true) :
    countPending d = 0 := by
  induction d with
  | nil => rfl
  | cons r d ih =>
    rw [allResolved, List.all_cons, Bool.and_eq_true] at h
    rw [countPending, ih (by rw [allResolved]; exact h.2)]
    have : 0 ≤ r.count := by simpa using h.1
    simp; omega

/-- Unfolding `get_df` when the cache file is absent or `overwrite` is
set: the file is first rewritten as all-pending. -/
theorem get_df_fresh_eq (oracle : Period → Option Nat) (periods : List Period)
    (overwrite : Bool) (s : Nat) (file0 : Option Cache)
    (hfresh : file0 = none ∨ overwrite = true) :
    get_df oracle periods overwrite s file0 =
      if allResolved (initCache periods.length) then
        { result := some (initCache periods.length),
          file := some (initCache periods.length),
          trace := [Ev.write (initCache periods.length),
                    Ev.write (initCache periods.length)] }
      else
        match runLoop oracle s 0 periods (initCache periods.length) with
        | .ok (d', tr) =>
          { result := some d', file := some d',
            trace := Ev.write (initCache periods.length) :: (tr ++ [Ev.write d']) }
        | .error tr =>
          { result := none, file := some (initCache periods.length),
            trace := Ev.write (initCache periods.length) :: tr } := by
  have main : ∀ file1 : Option Cache,
      loadCache file1 overwrite periods.length = initCache periods.length →
      initWrites file1 overwrite periods.length = [Ev.write (initCache periods.length)] →
      get_df oracle periods overwrite s file1 =
        if allResolved (initCache periods.length) then
          { result := some (initCache periods.length),
            file := some (initCache periods.length),
            trace := [Ev.write (initCache periods.length),
                      Ev.write (initCache periods.length)] }
        else
          match runLoop oracle s 0 periods (initCache periods.length) with
          | .ok (d', tr) =>
            { result := some d', file := some d',
              trace := Ev.write (initCache periods.length) :: (tr ++ [Ev.write d']) }
          | .error tr =>
            { result := none, file := some (initCache periods.length),
              trace := Ev.write (initCache periods.length) :: tr } := by
    intro file1 hload hwrites
    unfold get_df
    dsimp only
    rw [hload, hwrites]
    by_cases hall : allResolved (initCache periods.length) = true
    · rw [if_pos hall, if_pos hall]
      rfl
    · rw [if_neg hall, if_neg hall]
      cases runLoop oracle s 0 periods (initCache periods.length) with
      | ok pr => cases pr; rfl
      | error tr => rfl
  rcases hfresh with rfl | rfl
  · exact main none rfl rfl
  · cases file0 with
    | none => exact main none rfl rfl
    | some c => exact main (some c) (by simp [loadCache]) (by simp [initWrites])

/-- Unfolding `get_df` when the cache file exists and `overwrite` is
not set: the loaded table is the stored one and there is no initial
write. -/
theorem get_df_cached_eq (oracle : Period → Option Nat) (periods : List Period)
    (s : Nat) (d0 : Cache) :
    get_df oracle periods false s (some d0) =
      if allResolved d0 then
        { result := some d0, file := some d0, trace := [Ev.write d0] }
      else
        match runLoop oracle s 0 periods d0 with
        | .ok (d', tr) =>
          { result := some d', file := some d', trace := tr ++ [Ev.write d'] }
        | .error tr => { result := none, file := some d0, trace := tr } := by
  unfold get_df
  dsimp only
  rw [show loadCache (some d0) false periods.length = d0 from rfl,
    show initWrites (some d0) false periods.length = [] from rfl]
  by_cases hall : allResolved d0 = true
  · rw [if_pos hall, if_pos hall]
    rfl
  · rw [if_neg hall, if_neg hall]
    cases runLoop oracle s 0 periods d0 with
    | ok pr => cases pr; rfl
    | error tr => rfl

theorem exists_get?_of_lt {α : Type} {l : List α} {j : Nat} (h : j < l.length) :
    ∃ x, l.get? j = some x := ⟨l.get ⟨j, h⟩, List.get?_eq_get h⟩

theorem allResolved_of_get? :
    ∀ d : Cache, (∀ j r, d.get? j = some r → 0 ≤ r.count) → allResolved d = true
  | [], _ => rfl
  | r :: d, h => by
    rw [allResolved, List.all_cons, Bool.and_eq_true]
    refine ⟨by simpa using h 0 r rfl, ?_⟩
    exact allResolved_of_get? d (fun j x hx => h (j + 1) x (by simpa using hx))

/-- C3: on a fresh cache (no cache file, or `overwrite` true) with a
non-empty period list and every query answering, `get_df` returns a
table with exactly one row per period in period order: row `j` holds
the count fetched for period `j`, every count is non-negative, and
every date is the first day of that period's month. -/
theorem get_df_fresh_rows (oracle : Period → Option Nat) (s : Nat)
    (periods : List Period) (overwrite : Bool) (file0 : Option Cache)
    (hne : periods ≠ []) (hfresh : file0 = none ∨ overwrite = true)
    (hor : ∀ p ∈ periods, (oracle p).isSome) :
    ∃ t, (get_df oracle periods overwrite s file0).result = some t ∧
      t.length = periods.length ∧
      (∀ j p, periods.get? j = some p →
        ∃ c, oracle p = some c ∧ t.get? j = some ⟨⟨p.y, p.m, 1⟩, Int.ofNat c⟩) ∧
      (∀ j r, t.get? j = some r → 0 ≤ r.count) := by
  obtain ⟨d', tr, hrun, hlen, hq, hrows⟩ := runLoop_fresh oracle s periods hor
  have hA : allResolved (initCache periods.length) = false := by
    cases periods with
    | nil => exact absurd rfl hne
    | cons q rest => rw [List.length_cons]; exact allResolved_initCache_succ _
  rw [get_df_fresh_eq oracle periods overwrite s file0 hfresh, hA]
  rw [if_neg (by simp), hrun]
  refine ⟨d', rfl, hlen, hrows, ?_⟩
  intro j r hget
  have hj : j < periods.length := by rw [← hlen]; exact get?_lt_length hget
  obtain ⟨p, hp⟩ := exists_get?_of_lt hj
  obtain ⟨c, _, hrow⟩ := hrows j p hp
  rw [hget] at hrow
  obtain rfl : r = ⟨⟨p.y, p.m, 1⟩, Int.ofNat c⟩ := by simpa using hrow
  simp

/-- C4: with `overwrite` set, `get_df` queries once per period whatever
the prior cache file held, and every row of the result is freshly
fetched: the count for its period, dated the first of its month. -/
theorem get_df_overwrite_replaces_all (oracle : Period → Option Nat) (s : Nat)
    (periods : List Period) (file0 : Option Cache)
    (hor : ∀ p ∈ periods, (oracle p).isSome) :
    nQueries (get_df oracle periods true s file0).trace = periods.length ∧
    ∃ t, (get_df oracle periods true s file0).result = some t ∧
      t.length = periods.length ∧
      (∀ j p, periods.get? j = some p →
        ∃ c, oracle p = some c ∧ t.get? j = some ⟨⟨p.y, p.m, 1⟩, Int.ofNat c⟩) := by
  rw [get_df_fresh_eq oracle periods true s file0 (Or.inr rfl)]
  cases periods with
  | nil =>
    exact ⟨rfl, [], rfl, rfl, fun j p hj => Option.noConfusion hj⟩
  | cons q rest =>
    obtain ⟨d', tr, hrun, hlen, hq, hrows⟩ := runLoop_fresh oracle s (q :: rest) hor
    have hA : allResolved (initCache (q :: rest).length) = false := by
      rw [List.length_cons]; exact allResolved_initCache_succ _
    rw [hA, if_neg (by simp), hrun]
    refine ⟨?_, d', rfl, hlen, hrows⟩
    show nQueries (Ev.write _ :: (tr ++ [Ev.write d'])) = _
    rw [nQueries_write_cons, nQueries_append, hq]
    rfl

/-- C1: after a first `get_df` call on a fresh cache resolves every
record, a second call with the same arguments and `overwrite` unset
issues zero network queries and returns the same table. -/
theorem get_df_idempotent (oracle : Period → Option Nat) (s : Nat)
    (periods : List Period)
    (hne : periods ≠ []) (hor : ∀ p ∈ periods, (oracle p).isSome) :
    (get_df oracle periods false s none).result.isSome ∧
    nQueries (get_df oracle periods false s
      (get_df oracle periods false s none).file).trace = 0 ∧
    (get_df oracle periods false s (get_df oracle periods false s none).file).result
      = (get_df oracle periods false s none).result := by
  obtain ⟨d', tr, hrun, hlen, hq, hrows⟩ := runLoop_fresh oracle s periods hor
  have hA : allResolved (initCache periods.length) = false := by
    cases periods with
    | nil => exact absurd rfl hne
    | cons q rest => rw [List.length_cons]; exact allResolved_initCache_succ _
  rw [get_df_fresh_eq oracle periods false s none (Or.inl rfl), hA, if_neg (by simp), hrun]
  have hall : allResolved d' = true := by
    apply allResolved_of_get?
    intro j r hget
    have hj : j < periods.length := by rw [← hlen]; exact get?_lt_length hget
    obtain ⟨p, hp⟩ := exists_get?_of_lt hj
    obtain ⟨c, _, hrow⟩ := hrows j p hp
    rw [hget] at hrow
    obtain rfl : r = ⟨⟨p.y, p.m, 1⟩, Int.ofNat c⟩ := by simpa using hrow
    simp
  show (some d').isSome = true ∧
    nQueries (get_df oracle periods false s (some d')).trace = 0 ∧
    (get_df oracle periods false s (some d')).result = some d'
  rw [get_df_cached_eq oracle periods s d', if_pos hall]
  exact ⟨rfl, rfl, rfl⟩

/-- C2: on a stored cache with one row per period, `get_df` issues one
query per pending row — `n - k` queries when `k` of the `n` rows are
resolved — and every resolved row appears unchanged in the returned
table. -/
theorem get_df_resumes_pending (oracle : Period → Option Nat) (s : Nat)
    (periods : List Period) (d0 : Cache)
    (hlen : d0.length = periods.length)
    (hor : ∀ p ∈ periods, (oracle p).isSome) :
    nQueries (get_df oracle periods false s (some d0)).trace
        = periods.length - countResolved d0 ∧
    ∃ t, (get_df oracle periods false s (some d0)).result = some t ∧
      (∀ j r, d0.get? j = some r → 0 ≤ r.count → t.get? j = some r) := by
  rw [get_df_cached_eq]
  by_cases hall : allResolved d0 = true
  · rw [if_pos hall]
    have h1 := countPending_eq_zero_of_allResolved d0 hall
    have h2 := countPending_add_countResolved d0
    refine ⟨?_, d0, rfl, fun j r hget _ => hget⟩
    show (0 : Nat) = periods.length - countResolved d0
    omega
  · rw [if_neg hall]
    obtain ⟨d', tr, hrun⟩ := runLoop_ok_of_total oracle s periods 0 d0 (by omega) hor
    rw [hrun]
    obtain ⟨_, hq, _, _⟩ := runLoop_spec oracle s periods 0 d0 d' tr hrun
    refine ⟨?_, d', rfl, fun j r hget hres =>
      runLoop_preserves_resolved oracle s periods d0 d' tr hlen hrun j r hget hres⟩
    show nQueries (tr ++ [Ev.write d']) = periods.length - countResolved d0
    rw [nQueries_append, hq]
    have h3 : countPendingRange d0 0 periods.length = countPending d0 := by
      rw [← hlen]; exact countPendingRange_full d0
    have h2 := countPending_add_countResolved d0
    rw [h3]
    show countPending d0 + 0 = periods.length - countResolved d0
    omega

set_option maxRecDepth 4000

/-- C5: the period generator over 1991–2018, truncated before 2018-03
and with the first element dropped, starts at (1991, 2), has
`12*(2018-1991) + 2 - 1 = 325` elements, and is chronologically
ordered. -/
theorem dates_first_length_sorted :
    dates.head? = some (1991, 2) ∧ dates.length = 325 ∧ List.Chain' chronoBefore dates := by
  refine ⟨by decide, by decide, (chronoSorted_iff_chain dates).mp (by decide)⟩

theorem gapsAux_append_write : ∀ (l : List Ev) (c : Cache) (a : Option Nat),
    gapsAux (l ++ [Ev.write c]) a = gapsAux l a
  | [], _, none => rfl
  | [], _, some _ => rfl
  | Ev.query _ :: r, c, none => gapsAux_append_write r c (some 0)
  | Ev.query _ :: r, c, some a => congrArg (a :: ·) (gapsAux_append_write r c (some 0))
  | Ev.sleep _ :: r, c, none => gapsAux_append_write r c none
  | Ev.sleep t :: r, c, some a => gapsAux_append_write r c (some (a + t))
  | Ev.write _ :: r, c, a => gapsAux_append_write r c a

theorem nQueries_query_cons (i : Nat) (l : List Ev) :
    nQueries (Ev.query i :: l) = nQueries l + 1 := by
  simp [nQueries, List.filter, Nat.add_comm]

theorem totalSleep_write_cons (c : Cache) (l : List Ev) :
    totalSleep (Ev.write c :: l) = totalSleep l := by
  simp [totalSleep]

/-- Every trace the fetch loop emits — raising or not — has the
query-sleep alternation shape. -/
theorem runLoop_trace_shape (oracle : Period → Option Nat) (s : Nat) :
    ∀ (ps : List Period) (i : Nat) (d : Cache) (tr : List Ev),
      ((∃ d', runLoop oracle s i ps d = .ok (d', tr)) ∨
        runLoop oracle s i ps d = .error tr) →
      LoopTrace s tr := by
  intro ps
  induction ps with
  | nil =>
    intro i d tr h
    rcases h with ⟨d', h⟩ | h
    · rw [runLoop] at h
      simp only [Except.ok.injEq, Prod.mk.injEq] at h
      rw [← h.2]
      exact LoopTrace.nil
    · rw [runLoop] at h
      cases h
  | cons p rest ih =>
    intro i d tr h
    cases hget : d.get? i with
    | none =>
      rcases h with ⟨d', h⟩ | h
      · rw [runLoop, hget] at h; cases h
      · rw [runLoop, hget] at h
        simp only [Except.error.injEq] at h
        rw [← h]
        exact LoopTrace.nil
    | some r =>
      by_cases hc : 0 ≤ r.count
      · refine ih (i + 1) d tr ?_
        rcases h with ⟨d', h⟩ | h
        · rw [runLoop, hget] at h
          simp only [if_pos hc] at h
          exact Or.inl ⟨d', h⟩
        · rw [runLoop, hget] at h
          simp only [if_pos hc] at h
          exact Or.inr h
      · cases hor : oracle p with
        | none =>
          rcases h with ⟨d', h⟩ | h
          · rw [runLoop, hget] at h
            simp only [if_neg hc] at h
            rw [hor] at h
            cases h
          · rw [runLoop, hget] at h
            simp only [if_neg hc] at h
            rw [hor] at h
            simp only [Except.error.injEq] at h
            rw [← h]
            exact LoopTrace.single i
        | some c =>
          cases hrun : runLoop oracle s (i + 1) rest (d.set i ⟨⟨p.y, p.m, 1⟩, Int.ofNat c⟩) with
          | ok pr =>
            obtain ⟨d2', tr2⟩ := pr
            have htr2 : LoopTrace s tr2 := ih (i + 1) _ tr2 (Or.inl ⟨d2', hrun⟩)
            rcases h with ⟨d', h⟩ | h
            · rw [runLoop, hget] at h
              simp only [if_neg hc] at h
              rw [hor] at h
              simp only at h
              rw [hrun] at h
              simp only [Except.ok.injEq, Prod.mk.injEq] at h
              rw [← h.2]
              exact LoopTrace.step i tr2 htr2
            · rw [runLoop, hget] at h
              simp only [if_neg hc] at h
              rw [hor] at h
              simp only at h
              rw [hrun] at h
              cases h
          | error tr2 =>
            have htr2 : LoopTrace s tr2 := ih (i + 1) _ tr2 (Or.inr hrun)
            rcases h with ⟨d', h⟩ | h
            · rw [runLoop, hget] at h
              simp only [if_neg hc] at h
              rw [hor] at h
              simp only at h
              rw [hrun] at h
              cases h
            · rw [runLoop, hget] at h
              simp only [if_neg hc] at h
              rw [hor] at h
              simp only at h
              rw [hrun] at h
              simp only [Except.error.injEq] at h
              rw [← h]
              exact LoopTrace.step i tr2 htr2

theorem gapsAux_ge {s : Nat} {tr : List Ev} (h : LoopTrace s tr) :
    (∀ a, s ≤ a → ∀ g ∈ gapsAux tr (some a), s ≤ g) ∧
    (∀ g ∈ gapsAux tr none, s ≤ g) := by
  induction h with
  | nil => exact ⟨fun a _ g hg => absurd hg (List.not_mem_nil g),
      fun g hg => absurd hg (List.not_mem_nil g)⟩
  | single i =>
    refine ⟨fun a ha g hg => ?_, fun g hg => ?_⟩
    · obtain rfl : g = a := by simpa [gapsAux] using hg
      exact ha
    · simp [gapsAux] at hg
  | step i tr ht ih =>
    refine ⟨fun a ha g hg => ?_, fun g hg => ?_⟩
    · rw [show gapsAux (Ev.query i :: Ev.sleep s :: tr) (some a)
          = a :: gapsAux tr (some (0 + s)) from rfl] at hg
      rcases List.mem_cons.mp hg with rfl | hg2
      · exact ha
      · exact ih.1 (0 + s) (by omega) g hg2
    · rw [show gapsAux (Ev.query i :: Ev.sleep s :: tr) none
          = gapsAux tr (some (0 + s)) from rfl] at hg
      exact ih.1 (0 + s) (by omega) g hg

theorem loopTrace_eq_nil_of_no_queries {s : Nat} {tr : List Ev}
    (h : LoopTrace s tr) (hq : nQueries tr = 0) : tr = [] := by
  cases h with
  | nil => rfl
  | single i => rw [nQueries_query_cons] at hq; omega
  | step i tr2 ht =>
    rw [nQueries_query_cons] at hq
    omega

/-- The trace of any `get_df` run is a loop trace surrounded by file
writes, which contribute no queries, no sleep and no gaps. -/
theorem get_df_trace_shape (oracle : Period → Option Nat) (periods : List Period)
    (overwrite : Bool) (s : Nat) (file0 : Option Cache) :
    ∃ tr, LoopTrace s tr ∧
      gaps (get_df oracle periods overwrite s file0).trace = gaps tr ∧
      nQueries (get_df oracle periods overwrite s file0).trace = nQueries tr ∧
      totalSleep (get_df oracle periods overwrite s file0).trace = totalSleep tr := by
  have fresh : ∀ file1 : Option Cache, file1 = none ∨ overwrite = true →
      ∃ tr, LoopTrace s tr ∧
        gaps (get_df oracle periods overwrite s file1).trace = gaps tr ∧
        nQueries (get_df oracle periods overwrite s file1).trace = nQueries tr ∧
        totalSleep (get_df oracle periods overwrite s file1).trace = totalSleep tr := by
    intro file1 hfr
    rw [get_df_fresh_eq oracle periods overwrite s file1 hfr]
    by_cases hall : allResolved (initCache periods.length) = true
    · rw [if_pos hall]
      exact ⟨[], LoopTrace.nil, rfl, rfl, rfl⟩
    · rw [if_neg hall]
      cases hrun : runLoop oracle s 0 periods (initCache periods.length) with
      | ok pr =>
        obtain ⟨d', tr⟩ := pr
        refine ⟨tr, runLoop_trace_shape oracle s periods 0 _ tr (Or.inl ⟨d', hrun⟩), ?_, ?_, ?_⟩
        · show gapsAux (tr ++ [Ev.write d']) none = gaps tr
          rw [gapsAux_append_write]
          rfl
        · show nQueries (Ev.write _ :: (tr ++ [Ev.write d'])) = nQueries tr
          rw [nQueries_write_cons, nQueries_append]
          rfl
        · show totalSleep (Ev.write _ :: (tr ++ [Ev.write d'])) = totalSleep tr
          rw [totalSleep_write_cons, totalSleep_append]
          simp [totalSleep]
      | error tr =>
        refine ⟨tr, runLoop_trace_shape oracle s periods 0 _ tr (Or.inr hrun), ?_, ?_, ?_⟩
        · show gapsAux tr none = gaps tr
          rfl
        · show nQueries (Ev.write _ :: tr) = nQueries tr
          rw [nQueries_write_cons]
        · show totalSleep (Ev.write _ :: tr) = totalSleep tr
          rw [totalSleep_write_cons]
  cases file0 with
  | none => exact fresh none (Or.inl rfl)
  | some d0 =>
    cases overwrite with
    | true => exact fresh (some d0) (Or.inr rfl)
    | false =>
      rw [get_df_cached_eq oracle periods s d0]
      by_cases hall : allResolved d0 = true
      · rw [if_pos hall]
        exact ⟨[], LoopTrace.nil, rfl, rfl, rfl⟩
      · rw [if_neg hall]
        cases hrun : runLoop oracle s 0 periods d0 with
        | ok pr =>
          obtain ⟨d', tr⟩ := pr
          refine ⟨tr, runLoop_trace_shape oracle s periods 0 _ tr (Or.inl ⟨d', hrun⟩), ?_, ?_, ?_⟩
          · show gapsAux (tr ++ [Ev.write d']) none = gaps tr
            rw [gapsAux_append_write]
            rfl
          · show nQueries (tr ++ [Ev.write d']) = nQueries tr
            rw [nQueries_append]
            rfl
          · show totalSleep (tr ++ [Ev.write d']) = totalSleep tr
            rw [totalSleep_append]
            simp [totalSleep]
        | error tr =>
          exact ⟨tr, runLoop_trace_shape oracle s periods 0 _ tr (Or.inr hrun), rfl, rfl, rfl⟩

/-- C9: within one `get_df` run, the total sleep between any two
consecutive network queries is at least the sleep parameter, and a run
that issues zero network queries sleeps for a total of zero. -/
theorem get_df_delay_between_queries (oracle : Period → Option Nat)
    (periods : List Period) (overwrite : Bool) (s : Nat) (file0 : Option Cache) :
    (∀ g ∈ gaps (get_df oracle periods overwrite s file0).trace, s ≤ g) ∧
    (nQueries (get_df oracle periods overwrite s file0).trace = 0 →
      totalSleep (get_df oracle periods overwrite s file0).trace = 0) := by
  obtain ⟨tr, htr, hg, hn, hs⟩ := get_df_trace_shape oracle periods overwrite s file0
  constructor
  · rw [hg]
    exact (gapsAux_ge htr).2
  · intro h0
    rw [hn] at h0
    rw [hs, loopTrace_eq_nil_of_no_queries htr h0]
    rfl

/-- C10: a `get_df` call that returns a table always ends by rewriting
the cache file with exactly that table — also on a full cache hit, where
the rewritten rows are the loaded rows and no query was made. -/
theorem get_df_always_rewrites (oracle : Period → Option Nat) (periods : List Period)
    (overwrite : Bool) (s : Nat) (file0 : Option Cache) (t : Cache)
    (hres : (get_df oracle periods overwrite s file0).result = some t) :
    (get_df oracle periods overwrite s file0).file = some t ∧
    (get_df oracle periods overwrite s file0).trace.getLast? = some (Ev.write t) ∧
    (∀ d0, file0 = some d0 → overwrite = false → allResolved d0 = true →
      t = d0 ∧ nQueries (get_df oracle periods overwrite s file0).trace = 0) := by
  have fresh : ∀ file1 : Option Cache, file1 = none ∨ overwrite = true →
      (get_df oracle periods overwrite s file1).result = some t →
      (get_df oracle periods overwrite s file1).file = some t ∧
      (get_df oracle periods overwrite s file1).trace.getLast? = some (Ev.write t) := by
    intro file1 hfr hres1
    rw [get_df_fresh_eq oracle periods overwrite s file1 hfr] at hres1 ⊢
    by_cases hall : allResolved (initCache periods.length) = true
    · rw [if_pos hall] at hres1 ⊢
      obtain rfl : initCache periods.length = t := by simpa using hres1
      exact ⟨rfl, rfl⟩
    · rw [if_neg hall] at hres1 ⊢
      cases hrun : runLoop oracle s 0 periods (initCache periods.length) with
      | ok pr =>
        obtain ⟨d', tr⟩ := pr
        rw [hrun] at hres1
        obtain rfl : d' = t := by simpa using hres1
        refine ⟨rfl, ?_⟩
        show (Ev.write (initCache periods.length) :: (tr ++ [Ev.write d'])).getLast? = _
        rw [show Ev.write (initCache periods.length) :: (tr ++ [Ev.write d'])
            = (Ev.write (initCache periods.length) :: tr) ++ [Ev.write d'] from rfl]
        exact List.getLast?_concat _
      | error tr =>
        rw [hrun] at hres1
        exact Option.noConfusion hres1
  cases file0 with
  | none =>
    obtain ⟨h1, h2⟩ := fresh none (Or.inl rfl) hres
    exact ⟨h1, h2, fun d0 heq => by cases heq⟩
  | some d0 =>
    cases overwrite with
    | true =>
      obtain ⟨h1, h2⟩ := fresh (some d0) (Or.inr rfl) hres
      exact ⟨h1, h2, fun d0 _ hov => by cases hov⟩
    | false =>
      rw [get_df_cached_eq oracle periods s d0] at hres ⊢
      by_cases hall : allResolved d0 = true
      · rw [if_pos hall] at hres ⊢
        obtain rfl : d0 = t := by simpa using hres
        refine ⟨rfl, rfl, ?_⟩
        intro d1 heq _ _
        obtain rfl : d0 = d1 := by simpa using heq
        exact ⟨rfl, rfl⟩
      · rw [if_neg hall] at hres ⊢
        cases hrun : runLoop oracle s 0 periods d0 with
        | ok pr =>
          obtain ⟨d', tr⟩ := pr
          rw [hrun] at hres
          obtain rfl : d' = t := by simpa using hres
          refine ⟨rfl, List.getLast?_concat _, ?_⟩
          intro d1 heq _ hall1
          obtain rfl : d0 = d1 := by simpa using heq
          exact absurd hall1 hall
        | error tr =>
          rw [hrun] at hres
          exact Option.noConfusion hres

/-- C6 (failure evidence): on an existing all-pending two-period cache,
with the first query answering 5 and the second raising, `get_df`
raises and the cache file still holds the all-pending table — the
record resolved earlier in the same run is not persisted (the final
`to_csv` is only reached when the whole loop finishes), though the
stored rows for other periods are not corrupted. -/
theorem get_df_failure_discards_run :
    (get_df oracleFail periodsAB false 100 (some (initCache 2))).result = none ∧
    oracleFail ⟨1991, 2⟩ = some 5 ∧
    nQueries (get_df oracleFail periodsAB false 100 (some (initCache 2))).trace = 2 ∧
    (get_df oracleFail periodsAB false 100 (some (initCache 2))).file
      = some (initCache 2) := by
  refine ⟨rfl, rfl, rfl, rfl⟩

/-- C7 (silent-misalignment evidence): when the stored cache has one
resolved row but two periods are requested, `get_df` neither fails
loudly nor rebuilds: it makes zero queries and silently returns and
rewrites the one-row table, misaligned with the two-period request. -/
theorem get_df_length_mismatch_silent :
    cacheShort.length ≠ periodsAB.length ∧
    (get_df (fun _ => some 0) periodsAB false 100 (some cacheShort)).result
      = some cacheShort ∧
    nQueries (get_df (fun _ => some 0) periodsAB false 100 (some cacheShort)).trace = 0 ∧
    (get_df (fun _ => some 0) periodsAB false 100 (some cacheShort)).file
      = some cacheShort := by
  refine ⟨by decide, rfl, rfl, rfl⟩

/-- C8 (counterexample): the query string the notebook builds does not
have the spec's single-space shape — already for term "python",
database "astronomy", February 1991. -/
theorem queryString_ne_spec_shape :
    queryString "python" "astronomy" 1991 2
      ≠ specQueryString "python" "astronomy" 1991 2 := by
  decide

/-- C8 (amended): the query string has the spec's shape with two spaces
between the full-text clause and the pubdate clause — the month still
zero-padded to two digits. -/
theorem queryString_eq_two_space_shape (term db : String) (y m : Nat) :
    queryString term db y m = specQueryStringTwoSpace term db y m := by
  unfold queryString specQueryStringTwoSpace pad2
  by_cases h : m < 10
  · rw [if_pos h, if_pos h]
  · rw [if_neg h, if_neg h, String.empty_append]

theorem get_df_idempotent_witness :
    (periodsAB ≠ [] ∧ (∀ p ∈ periodsAB, (oracleW p).isSome)) ∧
    ((get_df oracleW periodsAB false 100 none).result.isSome ∧
      nQueries (get_df oracleW periodsAB false 100
        (get_df oracleW periodsAB false 100 none).file).trace = 0 ∧
      (get_df oracleW periodsAB false 100
          (get_df oracleW periodsAB false 100 none).file).result
        = (get_df oracleW periodsAB false 100 none).result) :=
  ⟨⟨by decide, by decide⟩,
    get_df_idempotent oracleW 100 periodsAB (by decide) (by decide)⟩

theorem get_df_resumes_pending_witness :
    (cacheMixed.length = periodsAB.length ∧ (∀ p ∈ periodsAB, (oracleW p).isSome)) ∧
    (nQueries (get_df oracleW periodsAB false 100 (some cacheMixed)).trace
        = periodsAB.length - countResolved cacheMixed ∧
      ∃ t, (get_df oracleW periodsAB false 100 (some cacheMixed)).result = some t ∧
        (∀ j r, cacheMixed.get? j = some r → 0 ≤ r.count → t.get? j = some r)) :=
  ⟨⟨by decide, by decide⟩,
    get_df_resumes_pending oracleW 100 periodsAB cacheMixed (by decide) (by decide)⟩

theorem get_df_fresh_rows_witness :
    (periodsAB ≠ [] ∧ ((none : Option Cache) = none ∨ false = true) ∧
      (∀ p ∈ periodsAB, (oracleW p).isSome)) ∧
    (∃ t, (get_df oracleW periodsAB false 100 none).result = some t ∧
      t.length = periodsAB.length ∧
      (∀ j p, periodsAB.get? j = some p →
        ∃ c, oracleW p = some c ∧ t.get? j = some ⟨⟨p.y, p.m, 1⟩, Int.ofNat c⟩) ∧
      (∀ j r, t.get? j = some r → 0 ≤ r.count)) :=
  ⟨⟨by decide, Or.inl rfl, by decide⟩,
    get_df_fresh_rows oracleW 100 periodsAB false none (by decide) (Or.inl rfl) (by decide)⟩

theorem get_df_overwrite_replaces_all_witness :
    (∀ p ∈ periodsAB, (oracleW p).isSome) ∧
    (nQueries (get_df oracleW periodsAB true 100 (some cacheDone)).trace
        = periodsAB.length ∧
      ∃ t, (get_df oracleW periodsAB true 100 (some cacheDone)).result = some t ∧
        t.length = periodsAB.length ∧
        (∀ j p, periodsAB.get? j = some p →
          ∃ c, oracleW p = some c ∧ t.get? j = some ⟨⟨p.y, p.m, 1⟩, Int.ofNat c⟩)) :=
  ⟨by decide,
    get_df_overwrite_replaces_all oracleW 100 periodsAB (some cacheDone) (by decide)⟩

theorem get_df_delay_between_queries_witness :
    (100 ∈ gaps (get_df oracleW periodsAB true 100 none).trace ∧ 100 ≤ 100) ∧
    (nQueries (get_df oracleW periodsAB false 100 (some cacheDone)).trace = 0 ∧
      totalSleep (get_df oracleW periodsAB false 100 (some cacheDone)).trace = 0) :=
  ⟨⟨by decide,
      (get_df_delay_between_queries oracleW periodsAB true 100 none).1 100 (by decide)⟩,
    ⟨by decide,
      (get_df_delay_between_queries oracleW periodsAB false 100 (some cacheDone)).2
        (by decide)⟩⟩

theorem get_df_always_rewrites_witness :
    ((get_df oracleW periodsAB false 100 (some cacheDone)).result = some cacheDone) ∧
    ((get_df oracleW periodsAB false 100 (some cacheDone)).file = some cacheDone ∧
      (get_df oracleW periodsAB false 100 (some cacheDone)).trace.getLast?
        = some (Ev.write cacheDone) ∧
      (∀ d0, (some cacheDone : Option Cache) = some d0 → false = false →
        allResolved d0 = true →
        cacheDone = d0 ∧
          nQueries (get_df oracleW periodsAB false 100 (some cacheDone)).trace = 0)) :=
  ⟨by decide,
    get_df_always_rewrites oracleW periodsAB false 100 (some cacheDone) cacheDone (by decide)⟩

end PyLit
